import Mathlib

/-!
Verification of the clip-selection core of the `clipforge` / `clipcraft`
repository.  The two sibling engines are embedded shallowly: Python floats
become `ℚ`, Python lists become `List`, Python dicts become association
lists, and a raised `KeyError` becomes `Option.none`.  Every definition is
translated directly from `src/clipforge/clip_selector.py` and
`src/clipcraft/clip_selector.py`.
-/

/- ----------------------------------------------------------------- -/
/- Generic stable insertion sorts (the model of Python's stable
   `sorted` / `list.sort` with a numeric key, ascending and
   descending).                                                      -/
/- ----------------------------------------------------------------- -/

/-- Stable ascending insert: `x` goes before the first element whose key
is `≥ key x` fails, i.e. before the first strictly larger run; elements
equal to `x` that were already present stay in front only when they come
from earlier in the original list. -/
def insertAscBy {α : Type} (key : α → ℚ) (x : α) : List α → List α
  | [] => [x]
  | y :: ys => if key x ≤ key y then x :: y :: ys else y :: insertAscBy key x ys

/-- Stable ascending sort by a rational key. -/
def sortAscBy {α : Type} (key : α → ℚ) : List α → List α
  | [] => []
  | x :: xs => insertAscBy key x (sortAscBy key xs)

/-- Stable descending insert. -/
def insertDescBy {α : Type} (key : α → ℚ) (x : α) : List α → List α
  | [] => [x]
  | y :: ys => if key y ≤ key x then x :: y :: ys else y :: insertDescBy key x ys

/-- Stable descending sort by a rational key (the model of Python
`sorted(l, key=key, reverse=True)`). -/
def sortDescBy {α : Type} (key : α → ℚ) : List α → List α
  | [] => []
  | x :: xs => insertDescBy key x (sortDescBy key xs)



/- ----------------------------------------------------------------- -/
/- Embedding of src/clipforge/clip_selector.py.  Python floats are
   modelled as ℚ; a Python dict of weights is an association list and
   a KeyError is Option.none.  Transcription (`transcribe`) is external
   I/O and is out of scope: the engine is embedded from the word list
   down.                                                             -/
/- ----------------------------------------------------------------- -/

namespace clipforge

/-- `Word` dataclass; the Python attribute `end` is spelled `end_`. -/
structure Word where
  text : String
  start : ℚ
  end_ : ℚ
deriving DecidableEq

/-- `Segment` dataclass: a candidate clip window. -/
structure Segment where
  words : List Word
  score : ℚ := 0
  label : String := ""
deriving DecidableEq

/-- `self.words[0].start if self.words else 0.0` -/
def headStartOf (ws : List Word) : ℚ :=
  match ws with
  | [] => 0
  | w :: _ => w.start

/-- `self.words[-1].end if self.words else 0.0` -/
def lastEndOf (ws : List Word) : ℚ :=
  match ws.getLast? with
  | some w => w.end_
  | none => 0

/-- Property `Segment.start`. -/
def Segment.start (s : Segment) : ℚ := headStartOf s.words

/-- Property `Segment.end`. -/
def Segment.end_ (s : Segment) : ℚ := lastEndOf s.words

/-- Property `Segment.duration = end - start`. -/
def Segment.duration (s : Segment) : ℚ := Segment.end_ s - Segment.start s

/-- Property `Segment.text`: words joined by a single space. -/
def Segment.text (s : Segment) : String :=
  " ".intercalate (s.words.map Word.text)

/-- `_SENTENCE_END = re.compile(r"[.!?]$")` — `search` on that pattern
succeeds exactly when the last character is `.`, `!` or `?`. -/
def isSentenceEnd (s : String) : Bool :=
  match s.data.getLast? with
  | some c => c == '.' || c == '!' || c == '?'
  | none => false

/-- `_sentence_boundary_score`.  The source also computes a `starts_ok`
flag from the first word but never uses it; only `first_cap` and
`ends_ok` reach the returned value. -/
def _sentence_boundary_score (seg : Segment) : ℚ :=
  let first_cap :=
    match seg.words with
    | [] => false
    | w :: _ =>
        match w.text.data with
        | [] => false
        | c :: _ => c.isUpper
  let ends_ok :=
    match seg.words.getLast? with
    | some w => isSentenceEnd w.text
    | none => false
  (if first_cap then (1 : ℚ)/2 else 0) + (if ends_ok then (1 : ℚ)/2 else 0)

/-- `_speech_rate_score`: 0 when `duration <= 0`, else
`min(len(words)/duration/4, 1)`. -/
def _speech_rate_score (seg : Segment) : ℚ :=
  if Segment.duration seg ≤ 0 then 0
  else min ((seg.words.length : ℚ) / Segment.duration seg / 4) 1

/-- The list `[words[i+1].start - words[i].end for i in range(len-1)]`. -/
def gapsOf : List Word → List ℚ
  | a :: b :: rest => (b.start - a.end_) :: gapsOf (b :: rest)
  | _ => []

/-- `_silence_penalty`. -/
def _silence_penalty (seg : Segment) : ℚ :=
  if seg.words.length < 2 then 0
  else
    let gaps := gapsOf seg.words
    let max_gap := match gaps with | [] => (0 : ℚ) | g :: gs => gs.foldl max g
    let avg_gap := if gaps.isEmpty then (0 : ℚ) else (gaps.foldl (· + ·) 0) / (gaps.length : ℚ)
    (if 2 < max_gap then (3 : ℚ)/10 else 0) + (if (4 : ℚ)/5 < avg_gap then (1 : ℚ)/5 else 0)

/-- `str.lower()` (character-wise, as the engine only compares ASCII). -/
def strLower (s : String) : String := String.mk (s.data.map Char.toLower)

/-- Initial-run test on character lists (helper for substring search). -/
def charsBeginWith : List Char → List Char → Bool
  | [], _ => true
  | _ :: _, [] => false
  | a :: as, b :: bs => a == b && charsBeginWith as bs

/-- Substring search on character lists: Python `needle in hay`. -/
def charsContain (needle : List Char) : List Char → Bool
  | [] => needle.isEmpty
  | c :: rest => charsBeginWith needle (c :: rest) || charsContain needle rest

/-- Python `needle in hay` for strings. -/
def strContainsSub (hay needle : String) : Bool := charsContain needle.data hay.data

/-- `_keyword_score`. -/
def _keyword_score (seg : Segment) (keywords : List String) : ℚ :=
  if keywords.isEmpty then 0
  else
    let text_lower := strLower (Segment.text seg)
    let hits := (keywords.filter (fun kw => strContainsSub text_lower (strLower kw))).length
    min ((hits : ℚ) / ((max keywords.length 1 : Nat) : ℚ)) 1

/-- The default weight dict of `score_segment`. -/
def defaultWeights : List (String × ℚ) :=
  [("boundary", 3/10), ("rate", 1/4), ("silence", 1/5), ("keyword", 1/4)]

/-- `score_segment`.  `weights or {…}` uses the default dict when the
argument is `None` or empty; each `w[key]` lookup raises `KeyError`
(modelled as `none`) when the key is absent. -/
def score_segment (seg : Segment) (keywords : List String)
    (weights : Option (List (String × ℚ))) : Option ℚ :=
  let w :=
    match weights with
    | none => defaultWeights
    | some d => if d.isEmpty then defaultWeights else d
  match List.lookup "boundary" w, List.lookup "rate" w,
        List.lookup "silence" w, List.lookup "keyword" w with
  | some b, some r, some si, some k =>
      some (max 0 (min (b * _sentence_boundary_score seg
        + r * _speech_rate_score seg
        - si * _silence_penalty seg
        + k * _keyword_score seg keywords) 1))
  | _, _, _, _ => none

/-- `words[-1].end - words[0].start` of a window. -/
def wspan (ws : List Word) : ℚ := lastEndOf ws - headStartOf ws

/-- Scan of `_snap_to_sentence_end`: the longest initial run ending at
the last sentence-ending word, or `none` when no word ends a sentence. -/
def snapOpt : List Word → Option (List Word)
  | [] => none
  | w :: rest =>
      match snapOpt rest with
      | some r => some (w :: r)
      | none => if isSentenceEnd w.text then some [w] else none

/-- `_snap_to_sentence_end`: trim the window to end on the last
sentence-ending word; keep as-is when there is none. -/
def _snap_to_sentence_end (ws : List Word) : List Word := (snapOpt ws).getD ws

/-- The `while start_time + min_dur <= words[-1].end` loop of
`_build_candidates`, with the iteration count made explicit as fuel. -/
def buildLoop (words : List Word) (min_dur max_dur step_sec : ℚ) :
    Nat → ℚ → List Segment
  | 0, _ => []
  | fuel + 1, start_time =>
      if start_time + min_dur ≤ lastEndOf words then
        let end_time := start_time + max_dur
        let window := words.filter (fun w => decide (start_time ≤ w.start ∧ w.end_ ≤ end_time))
        let rest := buildLoop words min_dur max_dur step_sec fuel (start_time + step_sec)
        if window ≠ [] ∧ min_dur ≤ wspan window then
          let snapped := _snap_to_sentence_end window
          let final := if snapped ≠ [] ∧ min_dur ≤ wspan snapped then snapped else window
          { words := final } :: rest
        else rest
      else []

/-- `_build_candidates`.  The fuel bounds the number of loop steps:
the loop condition fails as soon as `start_time > words[-1].end -
min_dur`, which happens after `⌊(last_end - min_dur - start)/step⌋ + 1`
increments.  (The source also computes an unused `total_dur`.  For
`step_sec <= 0` the source would loop forever; no call site does that —
every caller uses the default step of 5 — and the model then makes no
iteration.) -/
def _build_candidates (words : List Word) (min_dur max_dur step_sec : ℚ) :
    List Segment :=
  if words.isEmpty then []
  else
    let fuel : Nat :=
      if 0 < step_sec then
        (⌊(lastEndOf words - min_dur - headStartOf words) / step_sec⌋ + 1).toNat
      else 0
    buildLoop words min_dur max_dur step_sec fuel (headStartOf words)

/-- The accumulation loop of `_remove_overlapping`: walk the candidates,
keeping one only when it is `min_gap`-separated from everything already
selected. -/
def cfGreedy (min_gap : ℚ) (selected : List Segment) : List Segment → List Segment
  | [] => selected
  | seg :: rest =>
      if ∀ s ∈ selected,
          Segment.end_ seg + min_gap ≤ Segment.start s ∨
          Segment.start seg ≥ Segment.end_ s + min_gap then
        cfGreedy min_gap (selected ++ [seg]) rest
      else cfGreedy min_gap selected rest

/-- `_remove_overlapping`: stable sort by score descending, greedy
selection, then re-sort by start ascending. -/
def _remove_overlapping (segments : List Segment) (min_gap : ℚ) : List Segment :=
  sortAscBy Segment.start (cfGreedy min_gap [] (sortDescBy Segment.score segments))

/-- Python `f"{i:02d}"` for a natural number. -/
def pad2 (n : Nat) : String := if n < 10 then "0" ++ toString n else toString n

/-- The labelling loop `for i, seg in enumerate(top, 1): seg.label = …`. -/
def labelSegs (i : Nat) : List Segment → List Segment
  | [] => []
  | s :: rest => { s with label := "clip_" ++ pad2 i } :: labelSegs (i + 1) rest

/-- The selector tail of `select_clips`: take the top `num_clips` of the
overlap-free list (the source uses the default `min_gap = 2.0`) and
label them chronologically. -/
def selectTop (segments : List Segment) (num_clips : Nat) : List Segment :=
  labelSegs 1 ((_remove_overlapping segments 2).take num_clips)

/-- `select_clips` from the transcribed word list down (transcription is
external I/O).  Scoring uses the default weights, for which
`score_segment` always returns a value (see the bound theorems); the
`getD 0` is never exercised. -/
def select_clips (words : List Word) (num_clips : Nat)
    (min_duration max_duration : ℚ) (keywords : List String) : List Segment :=
  let candidates := _build_candidates words min_duration max_duration 5
  let scored := candidates.map
    (fun seg => { seg with score := (score_segment seg keywords none).getD 0 })
  selectTop scored num_clips

/-- Strong time-ordering of a word stream: non-decreasing in both
timestamps. -/
def wMono (a b : Word) : Prop := a.start ≤ b.start ∧ a.end_ ≤ b.end_

instance (a b : Word) : Decidable (wMono a b) :=
  inferInstanceAs (Decidable (_ ∧ _))

/-- Gap-separation of two segments (symmetric form of the acceptance
test in `_remove_overlapping`). -/
def sepRel (g : ℚ) (a b : Segment) : Prop :=
  Segment.end_ a + g ≤ Segment.start b ∨ Segment.end_ b + g ≤ Segment.start a

end clipforge

/- ----------------------------------------------------------------- -/
/- Embedding of src/clipcraft/clip_selector.py.  Transcript words are
   the dicts {"word", "start", "end"}; they are modelled as a fixed
   record.  The word-level selection path is embedded; the
   segment-level `_fallback_selection` (taken only when no word
   timestamps exist at all) is outside the claims.                   -/
/- ----------------------------------------------------------------- -/

namespace clipcraft

/-- A transcript word record `{"word": …, "start": …, "end": …}`. -/
structure CWord where
  word : String
  start : ℚ
  end_ : ℚ
deriving DecidableEq

/-- `Clip` dataclass. -/
structure Clip where
  start : ℚ
  end_ : ℚ
  text : String
  words : List CWord
  score : ℚ := 0
deriving DecidableEq

/-- Property `Clip.duration = end - start`. -/
def Clip.duration (c : Clip) : ℚ := c.end_ - c.start

/-- Python `str.rstrip()`. -/
def rstrip (s : String) : String :=
  String.mk ((s.data.reverse.dropWhile Char.isWhitespace).reverse)

/-- The test `text = s.rstrip(); text and text[-1] in ".!?"`. -/
def trimmedEndsPunct (s : String) : Bool :=
  match (rstrip s).data.getLast? with
  | some c => c == '.' || c == '!' || c == '?'
  | none => false

/-- The indices appended inside the loop of `_find_sentence_boundaries`:
`i + 1` for every word whose trimmed text ends a sentence, kept only
when `i + 1 < len(words)`. -/
def boundaryMarks (words : List CWord) : List Nat :=
  (List.range words.length).filterMap (fun i =>
    if trimmedEndsPunct ((words.getD i ⟨"", 0, 0⟩).word) ∧ i + 1 < words.length
    then some (i + 1) else none)

/-- Insertion into a strictly increasing list, dropping duplicates. -/
def insertNatSorted (n : Nat) : List Nat → List Nat
  | [] => [n]
  | m :: ms =>
      if n < m then n :: m :: ms
      else if n = m then m :: ms
      else m :: insertNatSorted n ms

/-- Python `sorted(set(l))`. -/
def sortDedup (l : List Nat) : List Nat := l.foldr insertNatSorted []

/-- `_find_sentence_boundaries`: `sorted(set([0] + marks + [len(words)]))`. -/
def _find_sentence_boundaries (words : List CWord) : List Nat :=
  sortDedup (0 :: (boundaryMarks words ++ [words.length]))

/-- The inner loop of `_generate_candidates` over the boundary tail
`boundaries[i+1:]` for a fixed start boundary `s_idx`; an early `[]`
models `break`. -/
def genInner (words : List CWord) (s_idx : Nat) (min_dur max_dur : ℚ) :
    List Nat → List Clip
  | [] => []
  | e_idx :: rest =>
      if words.length < e_idx then []
      else
        let start_t := (words.getD s_idx ⟨"", 0, 0⟩).start
        let end_t := (words.getD (min (e_idx - 1) (words.length - 1)) ⟨"", 0, 0⟩).end_
        let dur := end_t - start_t
        if dur < min_dur then genInner words s_idx min_dur max_dur rest
        else if max_dur < dur then []
        else
          let clip_words := (words.drop s_idx).take (e_idx - s_idx)
          { start := start_t, end_ := end_t,
            text := " ".intercalate (clip_words.map CWord.word),
            words := clip_words } :: genInner words s_idx min_dur max_dur rest

/-- The outer loop of `_generate_candidates` over `enumerate(boundaries)`. -/
def genOuter (words : List CWord) (min_dur max_dur : ℚ) : List Nat → List Clip
  | [] => []
  | s_idx :: rest =>
      if words.length ≤ s_idx then []
      else genInner words s_idx min_dur max_dur rest ++ genOuter words min_dur max_dur rest

/-- `_generate_candidates`. -/
def _generate_candidates (words : List CWord) (boundaries : List Nat)
    (min_dur max_dur : ℚ) : List Clip :=
  genOuter words min_dur max_dur boundaries

/-- `str.lower()`. -/
def strLower (s : String) : String := String.mk (s.data.map Char.toLower)

/-- Whitespace tokenizer, the model of Python `str.split()` (splits on
whitespace runs and drops empty tokens); the fuel is the character
count, enough for the whole scan. -/
def wsTokens : Nat → List Char → List (List Char)
  | 0, _ => []
  | _, [] => []
  | fuel + 1, c :: cs =>
      if c.isWhitespace then wsTokens fuel cs
      else (c :: cs.takeWhile (fun d => !d.isWhitespace)) ::
        wsTokens fuel (cs.dropWhile (fun d => !d.isWhitespace))

/-- Python `s.split()`. -/
def splitWs (s : String) : List String :=
  (wsTokens s.data.length s.data).map (fun cs => String.mk cs)

/-- `len(set(l))` for a token list. -/
def countDistinct (seen : List String) : List String → Nat
  | [] => 0
  | t :: ts => if t ∈ seen then countDistinct seen ts else 1 + countDistinct (t :: seen) ts

/-- Section 1 of `_score_clip`: sentence completeness (0-25). -/
def completenessScore (clip : Clip) : ℚ :=
  (match clip.text.data with
   | [] => 0
   | c :: _ => if c.isUpper then 10 else 0)
  + (if trimmedEndsPunct clip.text then 15 else 0)

/-- Section 2 of `_score_clip`: word density in words per second (0-20),
guarded by `duration > 0`. -/
def densityScore (clip : Clip) : ℚ :=
  if 0 < Clip.duration clip then
    let wps := (clip.words.length : ℚ) / Clip.duration clip
    if 2 ≤ wps ∧ wps ≤ 7/2 then 20
    else if 3/2 ≤ wps ∧ wps ≤ 4 then 12
    else if 1/2 < wps then 5
    else 0
  else 0

/-- `lexical_diversity = len(set(words_list)) / max(len(words_list), 1)`. -/
def lexicalDiversity (clip : Clip) : ℚ :=
  let words_list := splitWs (strLower clip.text)
  (countDistinct [] words_list : ℚ) / ((max words_list.length 1 : Nat) : ℚ)

/-- Section 3 of `_score_clip`: engagement signals. -/
def engagementScore (clip : Clip) : ℚ :=
  min ((clip.text.data.count '?' * 8 : Nat) : ℚ) 16
  + min ((clip.text.data.count '!' * 5 : Nat) : ℚ) 10
  + lexicalDiversity clip * 10

/-- Section 4 of `_score_clip`: duration fitness (0-15). -/
def durationFitness (clip : Clip) : ℚ :=
  if 20 ≤ Clip.duration clip ∧ Clip.duration clip ≤ 45 then 15
  else if 15 ≤ Clip.duration clip ∧ Clip.duration clip ≤ 60 then 10
  else 3

/-- The `max_gap` scan of section 5. -/
def maxGapFrom (acc : ℚ) : List CWord → ℚ
  | a :: b :: rest =>
      maxGapFrom (if acc < b.start - a.end_ then b.start - a.end_ else acc) (b :: rest)
  | _ => acc

/-- Section 5 of `_score_clip`: no long internal pauses (0-15). -/
def pauseScore (clip : Clip) : ℚ :=
  let max_gap := maxGapFrom 0 clip.words
  if max_gap < 1 then 15 else if max_gap < 2 then 10 else if max_gap < 3 then 5 else 0

/-- `_score_clip`: the running `score` accumulates exactly the five
sections above. -/
def _score_clip (clip : Clip) : ℚ :=
  completenessScore clip + densityScore clip + engagementScore clip
  + durationFitness clip + pauseScore clip

/-- `_overlaps`. -/
def _overlaps (a b : Clip) : Prop := a.start < b.end_ ∧ b.start < a.end_

instance (a b : Clip) : Decidable (_overlaps a b) :=
  inferInstanceAs (Decidable (_ ∧ _))

/-- The greedy selection loop of `select_clips`: stop at `count`
accepted, accept only when overlapping no earlier acceptance. -/
def ccGreedy (count : Nat) (selected : List Clip) : List Clip → List Clip
  | [] => selected
  | c :: rest =>
      if count ≤ selected.length then selected
      else if ∀ s ∈ selected, ¬ _overlaps c s then ccGreedy count (selected ++ [c]) rest
      else ccGreedy count selected rest

/-- The selector tail of `select_clips`: sort scored candidates by score
descending (stable), select greedily, re-sort by start. -/
def selectScored (cands : List Clip) (count : Nat) : List Clip :=
  sortAscBy Clip.start (ccGreedy count [] (sortDescBy Clip.score cands))

/-- `select_clips` on the flattened word list (the word-level path of
the source; flattening the segment dicts and the no-words fallback are
I/O-shape concerns outside the claims). -/
def select_clips (all_words : List CWord) (count : Nat)
    (min_duration max_duration : ℚ) : List Clip :=
  let boundaries := _find_sentence_boundaries all_words
  let candidates := _generate_candidates all_words boundaries min_duration max_duration
  let scored := candidates.map (fun c => { c with score := _score_clip c })
  selectScored scored count

/-- Strict interval disjointness of two clips. -/
def disjRel (a b : Clip) : Prop := a.end_ ≤ b.start ∨ b.end_ ≤ a.start

end clipcraft

/- ----------------------------------------------------------------- -/
/- Concrete inputs used by the witnesses, counterexamples and the
   code-bug evaluation.                                              -/
/- ----------------------------------------------------------------- -/

namespace clipforge

/-- A two-sentence five-second stream. -/
def demoWords : List Word := [⟨"Hi.", 0, 1⟩, ⟨"Yo.", 2, 3⟩]

/-- The single candidate `_build_candidates demoWords 2 10 5` emits. -/
def demoSeg : Segment := ⟨demoWords, 0, ""⟩

/-- A long high-scoring segment 0-10. -/
def c3X : Segment := ⟨[⟨"x", 0, 10⟩], 2, ""⟩

/-- A short low-scoring segment 0-3. -/
def c3Y : Segment := ⟨[⟨"y", 0, 3⟩], 1, ""⟩

/-- A short low-scoring segment 6-10, gap-compatible with `c3Y`. -/
def c3Z : Segment := ⟨[⟨"z", 6, 10⟩], 1, ""⟩

/-- Eight words in one second: words-per-second 8, far above the
conversational band. -/
def c5Fast : Segment := ⟨List.replicate 8 ⟨"w", 0, 1⟩, 0, ""⟩

/-- Three words in one second: words-per-second 3, inside the
conversational band. -/
def c5Band : Segment := ⟨List.replicate 3 ⟨"w", 0, 1⟩, 0, ""⟩

/-- An arbitrary segment for the partial-weights KeyError input. -/
def c6Seg : Segment := ⟨[], 0, ""⟩

/-- A one-word segment with score 1, for the all-tie selector fact. -/
def c6TieSeg : Segment := ⟨[⟨"t", 0, 1⟩], 1, ""⟩

/-- The all-zero weight dict over the four feature names. -/
def zeroWeights : List (String × ℚ) :=
  [("boundary", 0), ("rate", 0), ("silence", 0), ("keyword", 0)]

/-- A stream with non-decreasing starts but a jittery middle word whose
`end` overshoots: the spec Word invariant holds, strong time-ordering
does not. -/
def c8JWords : List Word := [⟨"a", 0, 2⟩, ⟨"b", 1, 50⟩, ⟨"c", 2, 3⟩]

/-- The candidate the window loop emits on `c8JWords`: the middle word
is skipped, so it is not a contiguous run. -/
def c8JSeg : Segment := ⟨[⟨"a", 0, 2⟩, ⟨"c", 2, 3⟩], 0, ""⟩

/-- A one-segment selector input for the labelling witness. -/
def c9DemoSeg : Segment := ⟨[⟨"s", 0, 1⟩], 1, ""⟩

end clipforge

namespace clipcraft

/-- A two-sentence stream. -/
def ccDemoWords : List CWord := [⟨"Hello.", 0, 2⟩, ⟨"World.", 3, 5⟩]

/-- The first candidate generated from `ccDemoWords` with bounds 1-10. -/
def ccDemoClip : Clip := ⟨0, 2, "Hello.", [⟨"Hello.", 0, 2⟩], 0⟩

/-- Distinct word texts: capitalised opener, alternating `?` / `!`
enders, a final full stop. -/
def bigWordText (k : Nat) : String :=
  if k = 0 then "A0?"
  else "b" ++ toString k ++ (if k = 31 then "." else if k % 2 = 1 then "!" else "?")

/-- 32 words over 16 seconds (two per second, overlapping one-second
spans, integer timestamps): words-per-second 2, no positive inter-word
gap. -/
def bigWords : List CWord :=
  (List.range 32).map (fun k => ⟨bigWordText k, ((k / 2 : Nat) : ℚ), ((k / 2 : Nat) : ℚ) + 1⟩)

/-- The full-stream candidate over `bigWords`: every feature of
`_score_clip` lands in its top tier reachable here, so the total is
106, above the documented 0-100 range. -/
def bigClip : Clip :=
  { start := 0, end_ := 16, text := " ".intercalate (bigWords.map CWord.word),
    words := bigWords, score := 0 }

/-- Three words in one second: words-per-second 3, inside the band. -/
def c5BandClip : Clip := ⟨0, 1, "x y z", [⟨"x", 0, 0⟩, ⟨"y", 0, 0⟩, ⟨"z", 0, 1⟩], 0⟩

end clipcraft

/- ----------------------------------------------------------------- -/
/- Proofs.  First the generic sort lemmas, then the lemmas about each
   engine, then the claim theorems with their witnesses and
   counterexamples.                                                  -/
/- ----------------------------------------------------------------- -/

theorem insertAscBy_perm {α : Type} (key : α → ℚ) (x : α) :
    ∀ l : List α, List.Perm (insertAscBy key x l) (x :: l) := by
  intro l
  induction l with
  | nil => simp [insertAscBy]
  | cons y ys ih =>
      by_cases h : key x ≤ key y
      · simp [insertAscBy, h]
      · simp only [insertAscBy, if_neg h]
        exact List.Perm.trans (List.Perm.cons y ih) (List.Perm.swap x y ys)

theorem sortAscBy_perm {α : Type} (key : α → ℚ) :
    ∀ l : List α, List.Perm (sortAscBy key l) l := by
  intro l
  induction l with
  | nil => simp [sortAscBy]
  | cons x xs ih =>
      exact List.Perm.trans (insertAscBy_perm key x _) (List.Perm.cons x ih)

theorem insertDescBy_perm {α : Type} (key : α → ℚ) (x : α) :
    ∀ l : List α, List.Perm (insertDescBy key x l) (x :: l) := by
  intro l
  induction l with
  | nil => simp [insertDescBy]
  | cons y ys ih =>
      by_cases h : key y ≤ key x
      · simp [insertDescBy, h]
      · simp only [insertDescBy, if_neg h]
        exact List.Perm.trans (List.Perm.cons y ih) (List.Perm.swap x y ys)

theorem sortDescBy_perm {α : Type} (key : α → ℚ) :
    ∀ l : List α, List.Perm (sortDescBy key l) l := by
  intro l
  induction l with
  | nil => simp [sortDescBy]
  | cons x xs ih =>
      exact List.Perm.trans (insertDescBy_perm key x _) (List.Perm.cons x ih)

theorem mem_insertAscBy {α : Type} {key : α → ℚ} {x a : α} {l : List α}
    (h : a ∈ insertAscBy key x l) : a = x ∨ a ∈ l := by
  have := (insertAscBy_perm key x l).mem_iff.mp h
  simpa using this

theorem mem_insertDescBy {α : Type} {key : α → ℚ} {x a : α} {l : List α}
    (h : a ∈ insertDescBy key x l) : a = x ∨ a ∈ l := by
  have := (insertDescBy_perm key x l).mem_iff.mp h
  simpa using this

theorem insertAscBy_pairwise {α : Type} (key : α → ℚ) (x : α) (l : List α)
    (h : List.Pairwise (fun a b => key a ≤ key b) l) :
    List.Pairwise (fun a b => key a ≤ key b) (insertAscBy key x l) := by
  induction l with
  | nil => simp [insertAscBy]
  | cons y ys ih =>
      rcases List.pairwise_cons.mp h with ⟨hy, hys⟩
      by_cases hxy : key x ≤ key y
      · simp only [insertAscBy, if_pos hxy]
        refine List.pairwise_cons.mpr ⟨?_, h⟩
        intro b hb
        rcases List.mem_cons.mp hb with rfl | hb
        · exact hxy
        · exact le_trans hxy (hy b hb)
      · simp only [insertAscBy, if_neg hxy]
        refine List.pairwise_cons.mpr ⟨?_, ih hys⟩
        intro b hb
        rcases mem_insertAscBy hb with rfl | hb
        · exact le_of_lt (lt_of_not_le hxy)
        · exact hy b hb

theorem sortAscBy_pairwise {α : Type} (key : α → ℚ) (l : List α) :
    List.Pairwise (fun a b => key a ≤ key b) (sortAscBy key l) := by
  induction l with
  | nil => simp [sortAscBy]
  | cons x xs ih => exact insertAscBy_pairwise key x _ ih

theorem insertDescBy_pairwise {α : Type} (key : α → ℚ) (x : α) (l : List α)
    (h : List.Pairwise (fun a b => key b ≤ key a) l) :
    List.Pairwise (fun a b => key b ≤ key a) (insertDescBy key x l) := by
  induction l with
  | nil => simp [insertDescBy]
  | cons y ys ih =>
      rcases List.pairwise_cons.mp h with ⟨hy, hys⟩
      by_cases hxy : key y ≤ key x
      · simp only [insertDescBy, if_pos hxy]
        refine List.pairwise_cons.mpr ⟨?_, h⟩
        intro b hb
        rcases List.mem_cons.mp hb with rfl | hb
        · exact hxy
        · exact le_trans (hy b hb) hxy
      · simp only [insertDescBy, if_neg hxy]
        refine List.pairwise_cons.mpr ⟨?_, ih hys⟩
        intro b hb
        rcases mem_insertDescBy hb with rfl | hb
        · exact le_of_lt (lt_of_not_le hxy)
        · exact hy b hb

theorem sortDescBy_pairwise {α : Type} (key : α → ℚ) (l : List α) :
    List.Pairwise (fun a b => key b ≤ key a) (sortDescBy key l) := by
  induction l with
  | nil => simp [sortDescBy]
  | cons x xs ih => exact insertDescBy_pairwise key x _ ih

/-- Stability consequence used by the degenerate-weights claim: when every
key is the same constant, the stable descending sort is the identity. -/
theorem sortDescBy_eq_self_of_const {α : Type} (key : α → ℚ) (c : ℚ) :
    ∀ l : List α, (∀ x ∈ l, key x = c) → sortDescBy key l = l := by
  intro l
  induction l with
  | nil => intro _; rfl
  | cons x xs ih =>
      intro h
      have hx : key x = c := h x (List.mem_cons_self x xs)
      have hxs : ∀ y ∈ xs, key y = c := fun y hy => h y (List.mem_cons_of_mem x hy)
      simp only [sortDescBy, ih hxs]
      cases xs with
      | nil => rfl
      | cons y ys =>
          have hy : key y = c := hxs y (List.mem_cons_self y ys)
          simp [insertDescBy, hx, hy]

theorem sortAscBy_length {α : Type} (key : α → ℚ) (l : List α) :
    (sortAscBy key l).length = l.length :=
  (sortAscBy_perm key l).length_eq

theorem sortDescBy_length {α : Type} (key : α → ℚ) (l : List α) :
    (sortDescBy key l).length = l.length :=
  (sortDescBy_perm key l).length_eq

/- ----------------------------------------------------------------- -/
/- Helper lemmas about the clipforge windowing loop.                 -/
/- ----------------------------------------------------------------- -/

namespace clipforge

/-- The last end of a nonempty word list is the end of one of its
members. -/
theorem lastEndOf_mem {ws : List Word} (h : ws ≠ []) :
    ∃ w ∈ ws, lastEndOf ws = w.end_ := by
  refine ⟨ws.getLast h, List.getLast_mem h, ?_⟩
  simp [lastEndOf, List.getLast?_eq_getLast ws h]

/-- The head start of a nonempty word list is the start of one of its
members. -/
theorem headStartOf_mem {ws : List Word} (h : ws ≠ []) :
    ∃ w ∈ ws, headStartOf ws = w.start := by
  cases ws with
  | nil => exact absurd rfl h
  | cons w rest => exact ⟨w, List.mem_cons_self w rest, rfl⟩

/-- Any nonempty list whose members all live inside `[lo, hi]` spans at
most `hi - lo`. -/
theorem wspan_le_of_bounds {F : List Word} {lo hi : ℚ} (hne : F ≠ [])
    (hb : ∀ x ∈ F, lo ≤ x.start ∧ x.end_ ≤ hi) : wspan F ≤ hi - lo := by
  obtain ⟨wl, hwl, hl⟩ := lastEndOf_mem hne
  obtain ⟨wh, hwh, hh⟩ := headStartOf_mem hne
  have h1 := (hb wl hwl).2
  have h2 := (hb wh hwh).1
  simp only [wspan, hl, hh]
  linarith

/-- The snap scan returns an initial run of its input. -/
theorem snapOpt_initial : ∀ {l r : List Word}, snapOpt l = some r → ∃ t, r ++ t = l := by
  intro l
  induction l with
  | nil => intro r h; simp [snapOpt] at h
  | cons w rest ih =>
      intro r h
      simp only [snapOpt] at h
      cases h2 : snapOpt rest with
      | some r2 =>
          rw [h2] at h
          obtain ⟨t, ht⟩ := ih h2
          cases h
          exact ⟨t, by simp [← ht]⟩
      | none =>
          rw [h2] at h
          by_cases hw : isSentenceEnd w.text = true
          · simp [hw] at h
            cases h
            exact ⟨rest, rfl⟩
          · simp [hw] at h

/-- Every word of the snapped window is a word of the window. -/
theorem mem_snap {x : Word} {ws : List Word}
    (h : x ∈ _snap_to_sentence_end ws) : x ∈ ws := by
  unfold _snap_to_sentence_end at h
  cases h2 : snapOpt ws with
  | none => rw [h2] at h; exact h
  | some r =>
      rw [h2] at h
      obtain ⟨t, ht⟩ := snapOpt_initial h2
      rw [← ht]
      exact List.mem_append_left t h

/-- The duration of a freshly built candidate is the span of its words. -/
theorem duration_mk (F : List Word) (sc : ℚ) (lb : String) :
    Segment.duration { words := F, score := sc, label := lb } = wspan F := rfl

/-- Duration bounds for every candidate produced by the window loop. -/
theorem buildLoop_duration (words : List Word) (mn mx st : ℚ) :
    ∀ fuel t seg, seg ∈ buildLoop words mn mx st fuel t →
      mn ≤ Segment.duration seg ∧ Segment.duration seg ≤ mx := by
  intro fuel
  induction fuel with
  | zero => intro t seg h; simp [buildLoop] at h
  | succ fuel ih =>
      intro t seg h
      simp only [buildLoop] at h
      by_cases hc : t + mn ≤ lastEndOf words
      · rw [if_pos hc] at h
        set window := words.filter (fun w => decide (t ≤ w.start ∧ w.end_ ≤ t + mx)) with hwin
        have hwinmem : ∀ x ∈ window, t ≤ x.start ∧ x.end_ ≤ t + mx := by
          intro x hx
          have := (List.mem_filter.mp hx).2
          simpa using this
        by_cases hg : window ≠ [] ∧ mn ≤ wspan window
        · rw [if_pos hg] at h
          rcases List.mem_cons.mp h with rfl | hrest
          · set snapped := _snap_to_sentence_end window with hsn
            by_cases hs : snapped ≠ [] ∧ mn ≤ wspan snapped
            · rw [if_pos hs, duration_mk]
              have hsub : ∀ x ∈ snapped, t ≤ x.start ∧ x.end_ ≤ t + mx :=
                fun x hx => hwinmem x (mem_snap hx)
              have hup : wspan snapped ≤ (t + mx) - t := wspan_le_of_bounds hs.1 hsub
              exact ⟨hs.2, by linarith⟩
            · rw [if_neg hs, duration_mk]
              have hup : wspan window ≤ (t + mx) - t := wspan_le_of_bounds hg.1 hwinmem
              exact ⟨hg.2, by linarith⟩
          · exact ih (t + st) seg hrest
        · rw [if_neg hg] at h
          exact ih (t + st) seg h
      · rw [if_neg hc] at h
        simp at h

/-- Duration bounds for `_build_candidates` (claim C1, clipforge side). -/
theorem build_candidates_duration (words : List Word) (mn mx st : ℚ) :
    ∀ seg ∈ _build_candidates words mn mx st,
      mn ≤ Segment.duration seg ∧ Segment.duration seg ≤ mx := by
  intro seg h
  unfold _build_candidates at h
  by_cases hw : words.isEmpty
  · rw [if_pos hw] at h; simp at h
  · rw [if_neg hw] at h
    exact buildLoop_duration words mn mx st _ _ seg h

end clipforge

/-- An initial run of an inner window of `c` is itself an inner window
of `c`. -/
theorem initialRun_infix {α : Type} {a b c : List α}
    (h1 : ∃ t, a ++ t = b) (h2 : b <:+: c) : a <:+: c := by
  obtain ⟨t, rfl⟩ := h1
  obtain ⟨s, u, hsu⟩ := h2
  exact ⟨s, t ++ u, by rw [← hsu]; simp [List.append_assoc]⟩

namespace clipforge

/-- Filtering a word list with non-decreasing ends by `end ≤ hi` keeps an
initial run. -/
theorem filterEnd_initial (hi : ℚ) :
    ∀ l : List Word, List.Pairwise (fun a b => a.end_ ≤ b.end_) l →
      ∃ t, l.filter (fun w => decide (w.end_ ≤ hi)) ++ t = l := by
  intro l
  induction l with
  | nil => intro _; exact ⟨[], rfl⟩
  | cons a as ih =>
      intro hp
      rcases List.pairwise_cons.mp hp with ⟨ha, has⟩
      by_cases h : a.end_ ≤ hi
      · obtain ⟨t, ht⟩ := ih has
        refine ⟨t, ?_⟩
        rw [List.filter_cons_of_pos (by simpa using h)]
        simpa using ht
      · refine ⟨a :: as, ?_⟩
        rw [List.filter_cons_of_neg (by simpa using h)]
        have : as.filter (fun w => decide (w.end_ ≤ hi)) = [] := by
          rw [List.filter_eq_nil_iff]
          intro x hx
          have := ha x hx
          simp only [decide_eq_true_eq]
          intro hxe
          exact h (le_trans this hxe)
        rw [this]
        rfl

/-- On a word stream with non-decreasing starts and ends, the time-window
filter of `_build_candidates` keeps a contiguous inner run. -/
theorem filterWindow_infix (lo hi : ℚ) :
    ∀ l : List Word, List.Pairwise wMono l →
      l.filter (fun w => decide (lo ≤ w.start ∧ w.end_ ≤ hi)) <:+: l := by
  intro l
  induction l with
  | nil => intro _; simp
  | cons w ws ih =>
      intro hp
      rcases List.pairwise_cons.mp hp with ⟨hcons, hws⟩
      by_cases hw : lo ≤ w.start ∧ w.end_ ≤ hi
      · rw [List.filter_cons_of_pos (by simpa using hw)]
        have hstart : ∀ x ∈ ws, lo ≤ x.start :=
          fun x hx => le_trans hw.1 (hcons x hx).1
        have hcongr : ws.filter (fun w => decide (lo ≤ w.start ∧ w.end_ ≤ hi))
            = ws.filter (fun w => decide (w.end_ ≤ hi)) := by
          apply List.filter_congr
          intro x hx
          simp [hstart x hx]
        have hend : List.Pairwise (fun a b : Word => a.end_ ≤ b.end_) ws :=
          hws.imp (fun h => h.2)
        obtain ⟨t, ht⟩ := filterEnd_initial hi ws hend
        refine ⟨[], t, ?_⟩
        simp only [List.nil_append, List.cons_append, hcongr, ht]
      · rw [List.filter_cons_of_neg (by simpa using hw)]
        obtain ⟨s, t, hst⟩ := ih hws
        refine ⟨w :: s, t, ?_⟩
        simp only [List.cons_append]
        rw [hst]

/-- On a strongly time-ordered stream, every candidate of the window
loop is a contiguous run of the stream. -/
theorem buildLoop_words_infix (words : List Word) (mn mx st : ℚ)
    (hmono : List.Pairwise wMono words) :
    ∀ fuel t seg, seg ∈ buildLoop words mn mx st fuel t →
      seg.words <:+: words := by
  intro fuel
  induction fuel with
  | zero => intro t seg h; simp [buildLoop] at h
  | succ fuel ih =>
      intro t seg h
      simp only [buildLoop] at h
      by_cases hc : t + mn ≤ lastEndOf words
      · rw [if_pos hc] at h
        set window := words.filter (fun w => decide (t ≤ w.start ∧ w.end_ ≤ t + mx)) with hwin
        have hwininf : window <:+: words := filterWindow_infix t (t + mx) words hmono
        by_cases hg : window ≠ [] ∧ mn ≤ wspan window
        · rw [if_pos hg] at h
          rcases List.mem_cons.mp h with rfl | hrest
          · set snapped := _snap_to_sentence_end window with hsn
            have hsnapinf : snapped <:+: words := by
              unfold _snap_to_sentence_end at hsn
              cases h2 : snapOpt window with
              | none => rw [h2] at hsn; simpa [hsn] using hwininf
              | some r =>
                  rw [h2] at hsn
                  simp only [Option.getD] at hsn
                  rw [hsn]
                  exact initialRun_infix (snapOpt_initial h2) hwininf
            by_cases hs : snapped ≠ [] ∧ mn ≤ wspan snapped
            · rw [if_pos hs]; exact hsnapinf
            · rw [if_neg hs]; exact hwininf
          · exact ih (t + st) seg hrest
        · rw [if_neg hg] at h
          exact ih (t + st) seg h
      · rw [if_neg hc] at h
        simp at h

/-- Contiguity of `_build_candidates` output on strongly time-ordered
streams. -/
theorem build_candidates_words_infix (words : List Word) (mn mx st : ℚ)
    (hmono : List.Pairwise wMono words) :
    ∀ seg ∈ _build_candidates words mn mx st, seg.words <:+: words := by
  intro seg h
  unfold _build_candidates at h
  by_cases hw : words.isEmpty
  · rw [if_pos hw] at h; simp at h
  · rw [if_neg hw] at h
    exact buildLoop_words_infix words mn mx st hmono _ _ seg h

end clipforge

namespace clipforge

theorem sepRel_symm (g : ℚ) : ∀ {a b : Segment}, sepRel g a b → sepRel g b a :=
  fun h => h.symm

/-- The greedy loop preserves pairwise gap-separation of the selected
list. -/
theorem cfGreedy_pairwise (g : ℚ) :
    ∀ (l sel : List Segment), List.Pairwise (sepRel g) sel →
      List.Pairwise (sepRel g) (cfGreedy g sel l) := by
  intro l
  induction l with
  | nil => intro sel h; exact h
  | cons seg rest ih =>
      intro sel h
      simp only [cfGreedy]
      by_cases hc : ∀ s ∈ sel,
          Segment.end_ seg + g ≤ Segment.start s ∨ Segment.start seg ≥ Segment.end_ s + g
      · rw [if_pos hc]
        refine ih (sel ++ [seg]) ?_
        rw [List.pairwise_append]
        refine ⟨h, List.pairwise_singleton _ _, ?_⟩
        intro a ha b hb
        rw [List.mem_singleton] at hb
        subst hb
        rcases hc a ha with h1 | h2
        · exact Or.inr h1
        · exact Or.inl h2
      · rw [if_neg hc]
        exact ih sel h

/-- `_remove_overlapping` output is pairwise separated by the gap. -/
theorem remove_overlapping_pairwise (segments : List Segment) (g : ℚ) :
    List.Pairwise (sepRel g) (_remove_overlapping segments g) := by
  unfold _remove_overlapping
  have hg : List.Pairwise (sepRel g) (cfGreedy g [] (sortDescBy Segment.score segments)) :=
    cfGreedy_pairwise g _ [] (List.Pairwise.nil)
  have hperm := sortAscBy_perm Segment.start (cfGreedy g [] (sortDescBy Segment.score segments))
  exact (hperm.pairwise_iff (fun h => sepRel_symm g h)).mpr hg

/-- Members of the labelled list are label-updates of members of the
input. -/
theorem mem_labelSegs : ∀ {l : List Segment} {i : Nat} {x : Segment},
    x ∈ labelSegs i l → ∃ y ∈ l, ∃ j, x = { y with label := "clip_" ++ pad2 j } := by
  intro l
  induction l with
  | nil => intro i x h; simp [labelSegs] at h
  | cons s rest ih =>
      intro i x h
      simp only [labelSegs] at h
      rcases List.mem_cons.mp h with rfl | hrest
      · exact ⟨s, List.mem_cons_self s rest, i, rfl⟩
      · obtain ⟨y, hy, j, hj⟩ := ih hrest
        exact ⟨y, List.mem_cons_of_mem s hy, j, hj⟩

/-- Relabelling does not move a segment's interval, so any pairwise
relation on intervals survives labelling. -/
theorem labelSegs_pairwise (R : Segment → Segment → Prop)
    (hR : ∀ (a b : Segment) (la lb : String),
      R a b → R { a with label := la } { b with label := lb }) :
    ∀ (l : List Segment) (i : Nat),
      List.Pairwise R l → List.Pairwise R (labelSegs i l) := by
  intro l
  induction l with
  | nil => intro i h; exact List.Pairwise.nil
  | cons s rest ih =>
      intro i h
      rcases List.pairwise_cons.mp h with ⟨hs, hrest⟩
      refine List.pairwise_cons.mpr ⟨?_, ih (i + 1) hrest⟩
      intro x hx
      obtain ⟨y, hy, j, rfl⟩ := mem_labelSegs hx
      exact hR s y _ _ (hs y hy)

theorem labelSegs_length : ∀ (l : List Segment) (i : Nat), (labelSegs i l).length = l.length := by
  intro l
  induction l with
  | nil => intro i; rfl
  | cons s rest ih => intro i; simp [labelSegs, ih]

/-- The label written at position `j` of the labelled list. -/
theorem labelSegs_getD_label :
    ∀ (l : List Segment) (i j : Nat) (d : Segment), j < l.length →
      ((labelSegs i l).getD j d).label = "clip_" ++ pad2 (i + j) := by
  intro l
  induction l with
  | nil => intro i j d h; simp at h
  | cons s rest ih =>
      intro i j d h
      cases j with
      | zero => rfl
      | succ j =>
          have hj : j < rest.length := by simpa using h
          have := ih (i + 1) j d hj
          simp only [labelSegs, List.getD_cons_succ]
          rw [this]
          have : i + 1 + j = i + (j + 1) := by omega
          rw [this]

end clipforge

namespace clipcraft

theorem disjRel_symm : ∀ {a b : Clip}, disjRel a b → disjRel b a := fun h => h.symm

/-- The greedy loop preserves pairwise disjointness. -/
theorem ccGreedy_pairwise (count : Nat) :
    ∀ (l sel : List Clip), List.Pairwise disjRel sel →
      List.Pairwise disjRel (ccGreedy count sel l) := by
  intro l
  induction l with
  | nil => intro sel h; exact h
  | cons c rest ih =>
      intro sel h
      simp only [ccGreedy]
      by_cases hstop : count ≤ sel.length
      · rw [if_pos hstop]; exact h
      · rw [if_neg hstop]
        by_cases hc : ∀ s ∈ sel, ¬ _overlaps c s
        · rw [if_pos hc]
          refine ih (sel ++ [c]) ?_
          rw [List.pairwise_append]
          refine ⟨h, List.pairwise_singleton _ _, ?_⟩
          intro a ha b hb
          rw [List.mem_singleton] at hb
          subst hb
          have := hc a ha
          unfold _overlaps at this
          rw [not_and_or] at this
          rcases this with h1 | h2
          · exact Or.inl (le_of_not_lt h1)
          · exact Or.inr (le_of_not_lt h2)
        · rw [if_neg hc]
          exact ih sel h

/-- The greedy loop never grows the selection past `count`. -/
theorem ccGreedy_length (count : Nat) :
    ∀ (l sel : List Clip), sel.length ≤ count →
      (ccGreedy count sel l).length ≤ count := by
  intro l
  induction l with
  | nil => intro sel h; exact h
  | cons c rest ih =>
      intro sel h
      simp only [ccGreedy]
      by_cases hstop : count ≤ sel.length
      · rw [if_pos hstop]; exact h
      · rw [if_neg hstop]
        by_cases hc : ∀ s ∈ sel, ¬ _overlaps c s
        · rw [if_pos hc]
          refine ih (sel ++ [c]) ?_
          have : sel.length < count := lt_of_not_le hstop
          simp only [List.length_append, List.length_singleton]
          omega
        · rw [if_neg hc]
          exact ih sel h

/-- The selector output is pairwise disjoint. -/
theorem selectScored_pairwise (cands : List Clip) (count : Nat) :
    List.Pairwise disjRel (selectScored cands count) := by
  unfold selectScored
  have hg : List.Pairwise disjRel (ccGreedy count [] (sortDescBy Clip.score cands)) :=
    ccGreedy_pairwise count _ [] (List.Pairwise.nil)
  have hperm := sortAscBy_perm Clip.start (ccGreedy count [] (sortDescBy Clip.score cands))
  exact (hperm.pairwise_iff (fun h => disjRel_symm h)).mpr hg

end clipcraft

/-- A `take` of a `drop` is a contiguous inner run of the list. -/
theorem dropTake_infix {α : Type} (n m : Nat) (l : List α) :
    (l.drop n).take m <:+: l := by
  refine ⟨l.take n, (l.drop n).drop m, ?_⟩
  rw [List.append_assoc, List.take_append_drop m (l.drop n), List.take_append_drop n l]

namespace clipcraft

/-- Every clip of the inner generation loop satisfies the duration
window (the loop `continue`s below `min_dur` and `break`s above
`max_dur`). -/
theorem genInner_duration (words : List CWord) (s_idx : Nat) (mn mx : ℚ) :
    ∀ (bl : List Nat) (c : Clip), c ∈ genInner words s_idx mn mx bl →
      mn ≤ Clip.duration c ∧ Clip.duration c ≤ mx := by
  intro bl
  induction bl with
  | nil => intro c h; simp [genInner] at h
  | cons e rest ih =>
      intro c h
      simp only [genInner] at h
      by_cases h1 : words.length < e
      · rw [if_pos h1] at h; simp at h
      · rw [if_neg h1] at h
        set start_t := (words.getD s_idx ⟨"", 0, 0⟩).start with hst
        set end_t := (words.getD (min (e - 1) (words.length - 1)) ⟨"", 0, 0⟩).end_ with het
        by_cases h2 : end_t - start_t < mn
        · rw [if_pos h2] at h
          exact ih c h
        · rw [if_neg h2] at h
          by_cases h3 : mx < end_t - start_t
          · rw [if_pos h3] at h; simp at h
          · rw [if_neg h3] at h
            rcases List.mem_cons.mp h with rfl | hrest
            · exact ⟨le_of_not_lt h2, le_of_not_lt h3⟩
            · exact ih c hrest

/-- Every clip of the inner generation loop is a contiguous slice
`words[s_idx:e_idx]` of the word stream. -/
theorem genInner_infix (words : List CWord) (s_idx : Nat) (mn mx : ℚ) :
    ∀ (bl : List Nat) (c : Clip), c ∈ genInner words s_idx mn mx bl →
      c.words <:+: words := by
  intro bl
  induction bl with
  | nil => intro c h; simp [genInner] at h
  | cons e rest ih =>
      intro c h
      simp only [genInner] at h
      by_cases h1 : words.length < e
      · rw [if_pos h1] at h; simp at h
      · rw [if_neg h1] at h
        by_cases h2 : (words.getD (min (e - 1) (words.length - 1)) ⟨"", 0, 0⟩).end_
            - (words.getD s_idx ⟨"", 0, 0⟩).start < mn
        · rw [if_pos h2] at h
          exact ih c h
        · rw [if_neg h2] at h
          by_cases h3 : mx < (words.getD (min (e - 1) (words.length - 1)) ⟨"", 0, 0⟩).end_
              - (words.getD s_idx ⟨"", 0, 0⟩).start
          · rw [if_pos h3] at h; simp at h
          · rw [if_neg h3] at h
            rcases List.mem_cons.mp h with rfl | hrest
            · exact dropTake_infix s_idx (e - s_idx) words
            · exact ih c hrest

/-- Duration bounds across the outer loop. -/
theorem genOuter_duration (words : List CWord) (mn mx : ℚ) :
    ∀ (bl : List Nat) (c : Clip), c ∈ genOuter words mn mx bl →
      mn ≤ Clip.duration c ∧ Clip.duration c ≤ mx := by
  intro bl
  induction bl with
  | nil => intro c h; simp [genOuter] at h
  | cons s rest ih =>
      intro c h
      simp only [genOuter] at h
      by_cases h1 : words.length ≤ s
      · rw [if_pos h1] at h; simp at h
      · rw [if_neg h1] at h
        rcases List.mem_append.mp h with hin | hout
        · exact genInner_duration words s mn mx rest c hin
        · exact ih c hout

/-- Contiguity across the outer loop. -/
theorem genOuter_infix (words : List CWord) (mn mx : ℚ) :
    ∀ (bl : List Nat) (c : Clip), c ∈ genOuter words mn mx bl →
      c.words <:+: words := by
  intro bl
  induction bl with
  | nil => intro c h; simp [genOuter] at h
  | cons s rest ih =>
      intro c h
      simp only [genOuter] at h
      by_cases h1 : words.length ≤ s
      · rw [if_pos h1] at h; simp at h
      · rw [if_neg h1] at h
        rcases List.mem_append.mp h with hin | hout
        · exact genInner_infix words s mn mx rest c hin
        · exact ih c hout

/-- Membership through the dedup insertion. -/
theorem mem_insertNatSorted {a n : Nat} :
    ∀ {l : List Nat}, (a ∈ insertNatSorted n l ↔ a = n ∨ a ∈ l) := by
  intro l
  induction l with
  | nil => simp [insertNatSorted]
  | cons m ms ih =>
      simp only [insertNatSorted]
      by_cases h1 : n < m
      · rw [if_pos h1]; simp [List.mem_cons]
      · rw [if_neg h1]
        by_cases h2 : n = m
        · rw [if_pos h2]; subst h2; simp [List.mem_cons]
        · rw [if_neg h2]
          simp only [List.mem_cons, ih]
          tauto

/-- The dedup insertion preserves strict sortedness. -/
theorem pairwise_insertNatSorted (n : Nat) :
    ∀ (l : List Nat), List.Pairwise (· < ·) l →
      List.Pairwise (· < ·) (insertNatSorted n l) := by
  intro l
  induction l with
  | nil => intro _; simp [insertNatSorted]
  | cons m ms ih =>
      intro h
      rcases List.pairwise_cons.mp h with ⟨hm, hms⟩
      simp only [insertNatSorted]
      by_cases h1 : n < m
      · rw [if_pos h1]
        refine List.pairwise_cons.mpr ⟨?_, h⟩
        intro b hb
        rcases List.mem_cons.mp hb with rfl | hb
        · exact h1
        · exact lt_trans h1 (hm b hb)
      · rw [if_neg h1]
        by_cases h2 : n = m
        · rw [if_pos h2]; exact h
        · rw [if_neg h2]
          have hmn : m < n := by omega
          refine List.pairwise_cons.mpr ⟨?_, ih hms⟩
          intro b hb
          rcases mem_insertNatSorted.mp hb with rfl | hb
          · exact hmn
          · exact hm b hb

/-- `sorted(set(l))` has the same members as `l`. -/
theorem mem_sortDedup {a : Nat} : ∀ {l : List Nat}, a ∈ sortDedup l ↔ a ∈ l := by
  intro l
  induction l with
  | nil => simp [sortDedup]
  | cons x xs ih =>
      simp only [sortDedup, List.foldr_cons, List.mem_cons]
      rw [show List.foldr insertNatSorted [] xs = sortDedup xs from rfl] at *
      rw [mem_insertNatSorted, ih]

/-- `sorted(set(l))` is strictly increasing. -/
theorem pairwise_sortDedup : ∀ (l : List Nat), List.Pairwise (· < ·) (sortDedup l) := by
  intro l
  induction l with
  | nil => simp [sortDedup]
  | cons x xs ih => exact pairwise_insertNatSorted x _ ih

/-- Membership in the punctuation marks list. -/
theorem mem_boundaryMarks {words : List CWord} {a : Nat} :
    a ∈ boundaryMarks words ↔
      ∃ i, i < words.length ∧ trimmedEndsPunct ((words.getD i ⟨"", 0, 0⟩).word) = true
        ∧ i + 1 < words.length ∧ a = i + 1 := by
  unfold boundaryMarks
  rw [List.mem_filterMap]
  constructor
  · rintro ⟨i, hi, hsome⟩
    rw [List.mem_range] at hi
    by_cases hc : trimmedEndsPunct ((words.getD i ⟨"", 0, 0⟩).word) = true ∧ i + 1 < words.length
    · rw [if_pos hc] at hsome
      cases hsome
      exact ⟨i, hi, hc.1, hc.2, rfl⟩
    · rw [if_neg hc] at hsome
      cases hsome
  · rintro ⟨i, hi, hpunct, hlt, rfl⟩
    refine ⟨i, List.mem_range.mpr hi, ?_⟩
    rw [if_pos ⟨hpunct, hlt⟩]

end clipcraft

/-- The unit clamp `max(0.0, min(raw, 1.0))` is nonnegative. -/
theorem clampUnit_nonneg (x : ℚ) : 0 ≤ max 0 (min x 1) := le_max_left 0 _

/-- The unit clamp `max(0.0, min(raw, 1.0))` is at most one. -/
theorem clampUnit_le_one (x : ℚ) : max 0 (min x 1) ≤ 1 :=
  max_le zero_le_one (min_le_right x 1)

namespace clipforge

/-- With `weights=None` the default dict is used and every lookup
succeeds. -/
theorem score_segment_none_eq (seg : Segment) (kws : List String) :
    score_segment seg kws none
      = some (max 0 (min ((3 : ℚ)/10 * _sentence_boundary_score seg
          + 1/4 * _speech_rate_score seg
          - 1/5 * _silence_penalty seg
          + 1/4 * _keyword_score seg kws) 1)) := by
  with_unfolding_all rfl

/-- With an explicit dict carrying all four feature names, every lookup
succeeds. -/
theorem score_segment_full_eq (seg : Segment) (kws : List String) (b r si k : ℚ) :
    score_segment seg kws
        (some [("boundary", b), ("rate", r), ("silence", si), ("keyword", k)])
      = some (max 0 (min (b * _sentence_boundary_score seg
          + r * _speech_rate_score seg
          - si * _silence_penalty seg
          + k * _keyword_score seg kws) 1)) := by
  with_unfolding_all rfl

end clipforge

/- ----------------------------------------------------------------- -/
/- The claims.                                                       -/
/- ----------------------------------------------------------------- -/

/-- C1: every candidate emitted by the candidate generator — the
sliding-window `_build_candidates` in clipforge and the boundary-pair
`_generate_candidates` in clipcraft — has
`min_duration <= duration <= max_duration`, inclusive. -/
theorem C1_candidate_duration_bounds :
    (∀ (words : List clipforge.Word) (mn mx st : ℚ),
      ∀ seg ∈ clipforge._build_candidates words mn mx st,
        mn ≤ clipforge.Segment.duration seg ∧ clipforge.Segment.duration seg ≤ mx) ∧
    (∀ (words : List clipcraft.CWord) (bs : List Nat) (mn mx : ℚ),
      ∀ c ∈ clipcraft._generate_candidates words bs mn mx,
        mn ≤ clipcraft.Clip.duration c ∧ clipcraft.Clip.duration c ≤ mx) :=
  ⟨fun words mn mx st => clipforge.build_candidates_duration words mn mx st,
   fun words bs mn mx c h => clipcraft.genOuter_duration words mn mx bs c h⟩

set_option maxRecDepth 4000 in
/-- Witness for C1 at concrete inputs: the candidate built from the
demo streams. -/
theorem C1_witness :
    (2 ≤ clipforge.Segment.duration clipforge.demoSeg
      ∧ clipforge.Segment.duration clipforge.demoSeg ≤ 10) ∧
    (1 ≤ clipcraft.Clip.duration clipcraft.ccDemoClip
      ∧ clipcraft.Clip.duration clipcraft.ccDemoClip ≤ 10) :=
  ⟨C1_candidate_duration_bounds.1 clipforge.demoWords 2 10 5 clipforge.demoSeg
      (by with_unfolding_all decide),
   C1_candidate_duration_bounds.2 clipcraft.ccDemoWords
      (clipcraft._find_sentence_boundaries clipcraft.ccDemoWords) 1 10
      clipcraft.ccDemoClip (by with_unfolding_all decide)⟩

/-- C2: no two outputs of either selector overlap: in clipforge any two
selected segments are separated by the 2-second `min_gap` (stated for
every gap, the pipeline uses 2), and in clipcraft any two selected
clips satisfy `a.end <= b.start` or `b.end <= a.start`. -/
theorem C2_selection_non_overlapping :
    (∀ (segments : List clipforge.Segment) (g : ℚ),
      List.Pairwise (clipforge.sepRel g) (clipforge._remove_overlapping segments g)) ∧
    (∀ (segments : List clipforge.Segment) (num : Nat),
      List.Pairwise (clipforge.sepRel 2) (clipforge.selectTop segments num)) ∧
    (∀ (cands : List clipcraft.Clip) (count : Nat),
      List.Pairwise clipcraft.disjRel (clipcraft.selectScored cands count)) ∧
    (∀ (all_words : List clipcraft.CWord) (count : Nat) (mn mx : ℚ),
      List.Pairwise clipcraft.disjRel (clipcraft.select_clips all_words count mn mx)) := by
  refine ⟨clipforge.remove_overlapping_pairwise, ?_, clipcraft.selectScored_pairwise, ?_⟩
  · intro segments num
    unfold clipforge.selectTop
    refine clipforge.labelSegs_pairwise (clipforge.sepRel 2) (fun a b la lb h => h) _ 1 ?_
    exact List.Pairwise.sublist (List.take_sublist num _)
      (clipforge.remove_overlapping_pairwise segments 2)
  · intro all_words count mn mx
    exact clipcraft.selectScored_pairwise _ count

/-- C3 counterexample: `c3Y` and `c3Z` are gap-compatible, so two
mutually non-overlapping candidates exist among the three, yet the
clipforge selector asked for two clips returns only one: the greedy
walk first accepts the higher-scoring `c3X`, which conflicts with
both. -/
theorem C3_counterexample :
    (clipforge.Segment.end_ clipforge.c3Y + 2 ≤ clipforge.Segment.start clipforge.c3Z) ∧
    (clipforge.selectTop [clipforge.c3Y, clipforge.c3X, clipforge.c3Z] 2).length = 1 := by
  with_unfolding_all decide

/-- C3 as amended: the selectors implement the greedy walk over the
stable score-descending order, but the `count` limit only bounds the
output size: `length <= count` always; reaching `count` is not implied
by the mere existence of `count` mutually non-overlapping candidates
(see the counterexample), only by the greedy walk itself accepting
`count` of them.  In clipforge the limit is moreover applied to the
chronologically sorted full greedy result rather than by stopping the
walk. -/
theorem C3_amended_length_bound :
    (∀ (segments : List clipforge.Segment) (num : Nat),
      (clipforge.selectTop segments num).length ≤ num) ∧
    (∀ (cands : List clipcraft.Clip) (count : Nat),
      (clipcraft.selectScored cands count).length ≤ count) ∧
    (∀ (all_words : List clipcraft.CWord) (count : Nat) (mn mx : ℚ),
      (clipcraft.select_clips all_words count mn mx).length ≤ count) := by
  have hcc : ∀ (cands : List clipcraft.Clip) (count : Nat),
      (clipcraft.selectScored cands count).length ≤ count := by
    intro cands count
    unfold clipcraft.selectScored
    rw [sortAscBy_length]
    exact clipcraft.ccGreedy_length count _ [] (Nat.zero_le count)
  refine ⟨?_, hcc, ?_⟩
  · intro segments num
    unfold clipforge.selectTop
    rw [clipforge.labelSegs_length, List.length_take]
    exact min_le_left num _
  · intro all_words count mn mx
    exact hcc _ count

set_option maxRecDepth 10000 in
/-- C4: the clipforge scorer is indeed clamped into [0,1] for every
candidate, but the clipcraft scorer violates its own documented 0-100
range: its engagement section alone can contribute 16+10+10 = 36, so the
genuine generated candidate `bigClip` (32 words, 16 s, default 15-60 s
duration bounds) scores 106. -/
theorem C4_scorer_range_violation :
    (∀ (seg : clipforge.Segment) (kws : List String),
      ∃ q, clipforge.score_segment seg kws none = some q ∧ 0 ≤ q ∧ q ≤ 1) ∧
    clipcraft._score_clip clipcraft.bigClip = 106 ∧
    ¬ clipcraft._score_clip clipcraft.bigClip ≤ 100 ∧
    clipcraft.bigClip ∈ clipcraft._generate_candidates clipcraft.bigWords
      (clipcraft._find_sentence_boundaries clipcraft.bigWords) 15 60 := by
  refine ⟨?_, ?_, ?_, ?_⟩
  · intro seg kws
    exact ⟨_, clipforge.score_segment_none_eq seg kws, clampUnit_nonneg _, clampUnit_le_one _⟩
  · with_unfolding_all decide
  · with_unfolding_all decide
  · with_unfolding_all decide

/-- C5 counterexample: in clipforge a words-per-second of 3 (inside the
2.0-3.5 conversational band) scores 3/4, while a words-per-second of 8
(machine-gun speech, far above the band) scores the maximal 1: the
in-band candidate does not score highest and the extreme one is not
penalised. -/
theorem C5_counterexample :
    clipforge._speech_rate_score clipforge.c5Band = 3/4 ∧
    clipforge._speech_rate_score clipforge.c5Fast = 1 ∧
    ((3 : ℚ)/4 < 1) ∧
    ((7 : ℚ)/2 <
      (clipforge.c5Fast.words.length : ℚ) / clipforge.Segment.duration clipforge.c5Fast) := by
  with_unfolding_all decide

/-- C5 as amended: clipcraft's word-density feature does follow the
band contract — maximal credit 20 exactly on 2.0-3.5 wps, partial
credit 12 moderately outside, 5 above 4 wps, 0 at near-silence, and a
`duration > 0` guard — while clipforge's speech-rate feature is instead
the monotone `min(rate/4, 1)`: bounded in [0,1], zero on non-positive
durations (no division by zero), and maximal exactly when the rate is
at least 4 wps, machine-gun speech included. -/
theorem C5_amended_speech_rate :
    (∀ seg : clipforge.Segment, clipforge.Segment.duration seg ≤ 0 →
      clipforge._speech_rate_score seg = 0) ∧
    (∀ seg : clipforge.Segment,
      0 ≤ clipforge._speech_rate_score seg ∧ clipforge._speech_rate_score seg ≤ 1) ∧
    (∀ seg : clipforge.Segment, 0 < clipforge.Segment.duration seg →
      (clipforge._speech_rate_score seg = 1 ↔
        4 ≤ (seg.words.length : ℚ) / clipforge.Segment.duration seg)) ∧
    (∀ clip : clipcraft.Clip, 0 < clipcraft.Clip.duration clip →
      2 ≤ (clip.words.length : ℚ) / clipcraft.Clip.duration clip →
      (clip.words.length : ℚ) / clipcraft.Clip.duration clip ≤ 7/2 →
      clipcraft.densityScore clip = 20) ∧
    (∀ clip : clipcraft.Clip,
      0 ≤ clipcraft.densityScore clip ∧ clipcraft.densityScore clip ≤ 20) ∧
    (∀ clip : clipcraft.Clip, 0 < clipcraft.Clip.duration clip →
      3/2 ≤ (clip.words.length : ℚ) / clipcraft.Clip.duration clip →
      (clip.words.length : ℚ) / clipcraft.Clip.duration clip < 2 →
      clipcraft.densityScore clip = 12) ∧
    (∀ clip : clipcraft.Clip, 0 < clipcraft.Clip.duration clip →
      4 < (clip.words.length : ℚ) / clipcraft.Clip.duration clip →
      clipcraft.densityScore clip = 5) ∧
    (∀ clip : clipcraft.Clip, 0 < clipcraft.Clip.duration clip →
      (clip.words.length : ℚ) / clipcraft.Clip.duration clip ≤ 1/2 →
      clipcraft.densityScore clip = 0) ∧
    (∀ clip : clipcraft.Clip, clipcraft.Clip.duration clip = 0 →
      clipcraft.densityScore clip = 0) := by
  refine ⟨?_, ?_, ?_, ?_, ?_, ?_, ?_, ?_, ?_⟩
  · intro seg h
    unfold clipforge._speech_rate_score
    rw [if_pos h]
  · intro seg
    unfold clipforge._speech_rate_score
    split_ifs with h
    · norm_num
    · have hd : 0 < clipforge.Segment.duration seg := lt_of_not_le h
      constructor
      · exact le_min (by positivity) zero_le_one
      · exact min_le_right _ 1
  · intro seg h
    unfold clipforge._speech_rate_score
    rw [if_neg (not_le.mpr h), min_eq_right_iff, le_div_iff₀ (by norm_num : (0:ℚ) < 4), one_mul]
  · intro clip hd h2 h35
    unfold clipcraft.densityScore
    rw [if_pos hd]
    dsimp only
    rw [if_pos ⟨h2, h35⟩]
  · intro clip
    unfold clipcraft.densityScore
    dsimp only
    split_ifs <;> norm_num
  · intro clip hd h32 h2
    unfold clipcraft.densityScore
    rw [if_pos hd]
    dsimp only
    rw [if_neg (fun hc => absurd hc.1 (not_le.mpr h2)), if_pos ⟨h32, by linarith⟩]
  · intro clip hd h4
    unfold clipcraft.densityScore
    rw [if_pos hd]
    dsimp only
    rw [if_neg (fun hc => by linarith [hc.2]), if_neg (fun hc => by linarith [hc.2]),
      if_pos (by linarith)]
  · intro clip hd hlow
    unfold clipcraft.densityScore
    rw [if_pos hd]
    dsimp only
    rw [if_neg (fun hc => by linarith [hc.1]), if_neg (fun hc => by linarith [hc.1]),
      if_neg (not_lt.mpr (by linarith))]
  · intro clip hd
    unfold clipcraft.densityScore
    rw [if_neg (by rw [hd]; exact lt_irrefl 0)]

/-- Witness for C5 as amended: the in-band demo clip gets the maximal
density credit. -/
theorem C5_witness : clipcraft.densityScore clipcraft.c5BandClip = 20 :=
  C5_amended_speech_rate.2.2.2.1 clipcraft.c5BandClip
    (by with_unfolding_all decide) (by with_unfolding_all decide)
    (by with_unfolding_all decide)

/-- C6 counterexample: a weight mapping overriding only a subset of the
feature names makes `score_segment` raise `KeyError` (modelled as
`none`) at the first missing lookup. -/
theorem C6_counterexample :
    clipforge.score_segment clipforge.c6Seg [] (some [("boundary", 3/10)]) = none := by
  with_unfolding_all rfl

/-- C6 as amended: for every weight mapping that defines all four
feature names — all-zero included — scoring returns a value clamped
into [0,1]; with all-zero weights every candidate scores exactly 0;
and when all scores tie the stable score sort is the identity, so the
selector walks the candidates in their original chronological order. -/
theorem C6_amended_degenerate_weights :
    (∀ (seg : clipforge.Segment) (kws : List String) (b r si k : ℚ),
      ∃ q, clipforge.score_segment seg kws
          (some [("boundary", b), ("rate", r), ("silence", si), ("keyword", k)])
        = some q ∧ 0 ≤ q ∧ q ≤ 1) ∧
    (∀ (seg : clipforge.Segment) (kws : List String),
      clipforge.score_segment seg kws (some clipforge.zeroWeights) = some 0) ∧
    (∀ (segments : List clipforge.Segment) (c : ℚ),
      (∀ s ∈ segments, s.score = c) → ∀ g,
        clipforge._remove_overlapping segments g
          = sortAscBy clipforge.Segment.start (clipforge.cfGreedy g [] segments)) := by
  refine ⟨?_, ?_, ?_⟩
  · intro seg kws b r si k
    exact ⟨_, clipforge.score_segment_full_eq seg kws b r si k,
      clampUnit_nonneg _, clampUnit_le_one _⟩
  · intro seg kws
    have h := clipforge.score_segment_full_eq seg kws 0 0 0 0
    rw [show clipforge.zeroWeights
        = [("boundary", (0:ℚ)), ("rate", 0), ("silence", 0), ("keyword", 0)] from rfl, h]
    norm_num
  · intro segments c h g
    unfold clipforge._remove_overlapping
    rw [sortDescBy_eq_self_of_const clipforge.Segment.score c segments h]

/-- Witness for C6 as amended: on an all-tied singleton the selector
reduces to the greedy walk in chronological order. -/
theorem C6_witness :
    clipforge._remove_overlapping [clipforge.c6TieSeg] 2
      = sortAscBy clipforge.Segment.start (clipforge.cfGreedy 2 [] [clipforge.c6TieSeg]) :=
  C6_amended_degenerate_weights.2.2 [clipforge.c6TieSeg] 1
    (by with_unfolding_all decide) 2

/-- C7: for every word sequence the boundary detector returns a
strictly increasing index list that contains `0` and `len(words)`, and
contains an index `j` exactly when `j` is a sentinel or `j = i + 1` for
a word `i` whose trimmed text ends in `.`, `!` or `?`; being strictly
increasing it has no duplicates, even when the sentence-final word is
also the last word. -/
theorem C7_boundary_detector :
    ∀ words : List clipcraft.CWord,
      List.Pairwise (· < ·) (clipcraft._find_sentence_boundaries words) ∧
      0 ∈ clipcraft._find_sentence_boundaries words ∧
      words.length ∈ clipcraft._find_sentence_boundaries words ∧
      (∀ j, j ∈ clipcraft._find_sentence_boundaries words ↔
        (j = 0 ∨ j = words.length ∨ ∃ i, j = i + 1 ∧ i < words.length ∧
          clipcraft.trimmedEndsPunct ((words.getD i ⟨"", 0, 0⟩).word) = true)) := by
  intro words
  unfold clipcraft._find_sentence_boundaries
  refine ⟨clipcraft.pairwise_sortDedup _, ?_, ?_, ?_⟩
  · rw [clipcraft.mem_sortDedup]
    exact List.mem_cons_self _ _
  · rw [clipcraft.mem_sortDedup]
    simp
  · intro j
    rw [clipcraft.mem_sortDedup]
    simp only [List.mem_cons, List.mem_append, List.mem_singleton,
      clipcraft.mem_boundaryMarks]
    constructor
    · rintro (rfl | ⟨i, hi, hp, hlt, rfl⟩ | rfl | h)
      · exact Or.inl rfl
      · exact Or.inr (Or.inr ⟨i, rfl, hi, hp⟩)
      · exact Or.inr (Or.inl rfl)
      · exact absurd h (List.not_mem_nil j)
    · rintro (rfl | rfl | ⟨i, rfl, hi, hp⟩)
      · exact Or.inl rfl
      · exact Or.inr (Or.inr (Or.inl rfl))
      · by_cases hlt : i + 1 < words.length
        · exact Or.inr (Or.inl ⟨i, hi, hp, hlt, rfl⟩)
        · exact Or.inr (Or.inr (Or.inl (by omega)))

set_option maxRecDepth 4000 in
/-- C8 counterexample: the stream `c8JWords` satisfies the Word-Stream
invariant (non-decreasing starts, each `start <= end`), yet the window
loop emits the candidate `c8JSeg` that skips the middle word — whose
jittery `end` overshoots the window — so the candidate is not a
contiguous slice. -/
theorem C8_counterexample :
    clipforge.c8JSeg ∈ clipforge._build_candidates clipforge.c8JWords 3 10 5 ∧
    List.Pairwise (fun a b : clipforge.Word => a.start ≤ b.start) clipforge.c8JWords ∧
    (∀ w ∈ clipforge.c8JWords, w.start ≤ w.end_) ∧
    ¬ (clipforge.c8JSeg.words <:+: clipforge.c8JWords) := by
  with_unfolding_all decide

/-- C8 as amended: clipcraft candidates are contiguous slices of the
word stream unconditionally, and clipforge candidates are contiguous
slices whenever the stream is non-decreasing in both `start` and `end`
timestamps; with end-timestamp jitter the clipforge window filter can
omit an inner word (see the counterexample). -/
theorem C8_amended_contiguity :
    (∀ (words : List clipforge.Word) (mn mx st : ℚ),
      List.Pairwise clipforge.wMono words →
      ∀ seg ∈ clipforge._build_candidates words mn mx st, seg.words <:+: words) ∧
    (∀ (words : List clipcraft.CWord) (bs : List Nat) (mn mx : ℚ),
      ∀ c ∈ clipcraft._generate_candidates words bs mn mx, c.words <:+: words) :=
  ⟨fun words mn mx st h => clipforge.build_candidates_words_infix words mn mx st h,
   fun words bs mn mx c h => clipcraft.genOuter_infix words mn mx bs c h⟩

set_option maxRecDepth 4000 in
/-- Witness for C8 as amended at concrete inputs: the demo candidates
are contiguous runs of their streams. -/
theorem C8_witness :
    clipforge.demoSeg.words <:+: clipforge.demoWords ∧
    clipcraft.ccDemoClip.words <:+: clipcraft.ccDemoWords :=
  ⟨C8_amended_contiguity.1 clipforge.demoWords 2 10 5 (by with_unfolding_all decide)
      clipforge.demoSeg (by with_unfolding_all decide),
   C8_amended_contiguity.2 clipcraft.ccDemoWords
      (clipcraft._find_sentence_boundaries clipcraft.ccDemoWords) 1 10
      clipcraft.ccDemoClip (by with_unfolding_all decide)⟩

/-- C9: both selectors return their output sorted by `start` ascending,
and clipforge assigns the sequential labels `clip_01`, `clip_02`, … by
chronological position in that sorted output (position `j` carries
`clip_{j+1}` zero-padded to two digits), not by selection order. -/
theorem C9_output_chronological :
    (∀ (segments : List clipforge.Segment) (num : Nat),
      List.Pairwise (fun a b => clipforge.Segment.start a ≤ clipforge.Segment.start b)
        (clipforge.selectTop segments num)) ∧
    (∀ (segments : List clipforge.Segment) (num j : Nat),
      j < (clipforge.selectTop segments num).length →
      ((clipforge.selectTop segments num).getD j ⟨[], 0, ""⟩).label
        = "clip_" ++ clipforge.pad2 (j + 1)) ∧
    (∀ (cands : List clipcraft.Clip) (count : Nat),
      List.Pairwise (fun a b : clipcraft.Clip => a.start ≤ b.start)
        (clipcraft.selectScored cands count)) ∧
    (∀ (all_words : List clipcraft.CWord) (count : Nat) (mn mx : ℚ),
      List.Pairwise (fun a b : clipcraft.Clip => a.start ≤ b.start)
        (clipcraft.select_clips all_words count mn mx)) := by
  have h3 : ∀ (cands : List clipcraft.Clip) (count : Nat),
      List.Pairwise (fun a b : clipcraft.Clip => a.start ≤ b.start)
        (clipcraft.selectScored cands count) := by
    intro cands count
    unfold clipcraft.selectScored
    exact sortAscBy_pairwise clipcraft.Clip.start _
  refine ⟨?_, ?_, h3, ?_⟩
  · intro segments num
    unfold clipforge.selectTop
    refine clipforge.labelSegs_pairwise _ (fun a b la lb h => h) _ 1 ?_
    refine List.Pairwise.sublist (List.take_sublist num _) ?_
    unfold clipforge._remove_overlapping
    exact sortAscBy_pairwise clipforge.Segment.start _
  · intro segments num j h
    unfold clipforge.selectTop at h ⊢
    have hj : j < ((clipforge._remove_overlapping segments 2).take num).length := by
      rwa [clipforge.labelSegs_length] at h
    rw [clipforge.labelSegs_getD_label _ 1 j _ hj, Nat.add_comm]
  · intro all_words count mn mx
    exact h3 _ count

set_option maxRecDepth 4000 in
/-- Witness for C9 at a concrete input: a singleton selection carries
the label `clip_01` at chronological position 0. -/
theorem C9_witness :
    0 < (clipforge.selectTop [clipforge.c9DemoSeg] 1).length ∧
    ((clipforge.selectTop [clipforge.c9DemoSeg] 1).getD 0 ⟨[], 0, ""⟩).label = "clip_01" := by
  constructor
  · with_unfolding_all decide
  · have h := C9_output_chronological.2.1 [clipforge.c9DemoSeg] 1 0
      (by with_unfolding_all decide)
    rw [h]
    with_unfolding_all decide

/-- C10 (implicit): the clipforge `Segment` derived properties are total
on an empty `words` list — `start`, `end` and `duration` are 0 and
`text` is the empty string, with no exception (each accessor guards the
empty case). -/
theorem C10_empty_segment_total :
    ∀ (sc : ℚ) (lb : String),
      clipforge.Segment.start ⟨[], sc, lb⟩ = 0 ∧
      clipforge.Segment.end_ ⟨[], sc, lb⟩ = 0 ∧
      clipforge.Segment.duration ⟨[], sc, lb⟩ = 0 ∧
      clipforge.Segment.text ⟨[], sc, lb⟩ = "" := by
  intro sc lb
  refine ⟨rfl, rfl, ?_, rfl⟩
  show clipforge.lastEndOf [] - clipforge.headStartOf [] = 0
  norm_num [clipforge.lastEndOf, clipforge.headStartOf]
